import Mathlib

/-!
Verification development for the LomaLoma document-outline pipeline.

The Python sources are shallowly embedded: Python `float` values are
modelled as rationals (`ℚ`), Python `int` as `Int`/`Nat`, Python strings
as `String` over their character lists, and fallible computations
(Python exceptions such as `ZeroDivisionError`) as `Option`.  Python
string primitives (`str.strip`, `str.split`, `str.upper`, lexicographic
comparison, `str.startswith`) are re-implemented over `List Char` so
that every definition reduces inside the kernel; they agree with the
CPython semantics on the ASCII inputs that appear in this development.
-/

namespace LomaLoma

/-! ## Python string primitives -/

/-- Python `str.upper()` (ASCII range, as used for the label strings). -/
def pyUpper (s : String) : String :=
  ⟨s.data.map Char.toUpper⟩

/-- Python `str.strip()`: remove leading and trailing whitespace. -/
def pyStrip (s : String) : String :=
  ⟨((s.data.dropWhile Char.isWhitespace).reverse.dropWhile Char.isWhitespace).reverse⟩

/-- Python `len(s.split())`: the number of maximal runs of
non-whitespace characters (`str.split()` with no argument splits on
whitespace runs and drops empty fragments). -/
def pyWordCount (s : String) : Nat :=
  (s.data.foldl
    (fun (st : Bool × Nat) c =>
      if c.isWhitespace then (false, st.2)
      else if st.1 then (true, st.2) else (true, st.2 + 1))
    (false, 0)).2

/-- Python `s.startswith(t)`. -/
def pyStartsWith (s t : String) : Bool :=
  t.data.isPrefixOf s.data

/-- Lexicographic `<` on character lists by code point, exactly the
CPython string comparison. -/
def listLtb : List Char → List Char → Bool
  | _, [] => false
  | [], _ :: _ => true
  | a :: as, b :: bs =>
      if a.val < b.val then true
      else if b.val < a.val then false
      else listLtb as bs

/-- Python `a < b` on strings. -/
def pyStrLtb (a b : String) : Bool :=
  listLtb a.data b.data

/-- Python `a >= b` on strings (total order, so `a ≥ b ↔ ¬ a < b`). -/
def pyStrGeb (a b : String) : Bool :=
  !(pyStrLtb a b)

/-- Propositional form of the Python string order, used to state
invariants ("strictly greater in lexicographic string order"). -/
def strLt (a b : String) : Prop :=
  pyStrLtb a b = true

instance (a b : String) : Decidable (strLt a b) := by
  unfold strLt; infer_instance

/-! ## `postprocess.py` — the Outline Builder

`build_outline` in the source keeps a stack of the currently open
heading dicts.  A freshly created dict is appended to its parent's
`children` list (or to the root `outline` list) at creation time and is
then still mutated through the stack alias while it remains on the
stack; a dict receives no further children once popped.  The functional
rendering below is the standard defunctionalisation of that mutation
pattern: each stack frame carries the children it has accumulated so
far, and a frame is attached to the frame below it (or to the root
list) at the moment it is popped.  Since at most one child of any node
is ever on the stack, attachment order equals creation order and the
resulting tree is identical. -/

namespace Postprocess

/-- One element of the `lines` input of `build_outline`: the two dict
keys the function reads (`line["text"]`, `line["page"]`). -/
structure Line where
  text : String
  page : Int
deriving DecidableEq

/-- An outline node as built by `build_outline`: the dict
`{"level": …, "text": …, "page": …, "children": […]}`.  (A node with no
children is a dict without the `"children"` key; the empty list models
that.) -/
inductive Entry : Type where
  | node (level : String) (text : String) (page : Int) (children : List Entry)

def Entry.level : Entry → String
  | .node l _ _ _ => l

def Entry.text : Entry → String
  | .node _ t _ _ => t

def Entry.page : Entry → Int
  | .node _ _ p _ => p

def Entry.children : Entry → List Entry
  | .node _ _ _ c => c

/-- `parent.setdefault("children", []).append(child)`. -/
def addChild (parent child : Entry) : Entry :=
  match parent with
  | .node l t p cs => .node l t p (cs ++ [child])

/-- The popping loop `while stack and stack[-1]["level"] >= level`,
with `carry` the most recently popped frame (already complete, being
attached to the next frame below or, if the stack runs out, to the root
outline list).  The stack is kept top-first. -/
def popGEAux (lvl : String) (outline : List Entry) (carry : Entry) :
    List Entry → List Entry × List Entry
  | [] => (outline ++ [carry], [])
  | g :: rest =>
      if pyStrGeb g.level lvl then popGEAux lvl outline (addChild g carry) rest
      else (outline, addChild g carry :: rest)

/-- Pop every frame whose level is `>=` the incoming level. -/
def popGE (lvl : String) (outline stack : List Entry) :
    List Entry × List Entry :=
  match stack with
  | [] => (outline, [])
  | top :: rest =>
      if pyStrGeb top.level lvl then popGEAux lvl outline top rest
      else (outline, top :: rest)

/-- One iteration of the `for line, label in zip(lines, labels)` loop.
The state is `(outline, stack)`, stack top-first. -/
def outlineStep (st : List Entry × List Entry) (line : Line) (label : String) :
    List Entry × List Entry :=
  if label = "BODY" then st
  else
    let level := pyUpper label
    let entry := Entry.node level (pyStrip line.text) line.page []
    let p := popGE level st.1 st.2
    (p.1, entry :: p.2)

/-- Run the loop over the zipped `(line, label)` pairs. -/
def buildState (pairs : List (Line × String)) : List Entry × List Entry :=
  pairs.foldl (fun st p => outlineStep st p.1 p.2) ([], [])

/-- Attach the frames still on the stack at the end of the input (in
the source they are already attached; here the deferred attachments are
performed bottom-up). -/
def flushAux (outline : List Entry) (carry : Entry) : List Entry → List Entry
  | [] => outline ++ [carry]
  | g :: rest => flushAux outline (addChild g carry) rest

def flush (outline : List Entry) : List Entry → List Entry
  | [] => outline
  | top :: rest => flushAux outline top rest

/-- `build_outline(lines, labels)` from `postprocess.py`. -/
def build_outline (lines : List Line) (labels : List String) : List Entry :=
  let st := buildState (lines.zip labels)
  flush st.1 st.2

/-- Occurrence of an entry somewhere in a tree (the node itself, or
inside the children of a descendant). -/
inductive Occurs (e : Entry) : Entry → Prop where
  | here : Occurs e e
  | deeper {t c : Entry} : c ∈ t.children → Occurs e c → Occurs e t

/-- The tree invariant of claim C10: along every edge the child's level
is strictly greater than the parent's in the Python string order. -/
inductive Inc : Entry → Prop where
  | node (l t : String) (p : Int) (cs : List Entry)
      (hlt : ∀ c ∈ cs, strLt l c.level)
      (hrec : ∀ c ∈ cs, Inc c) :
      Inc (.node l t p cs)

/-- Relation between a stack frame and the frame directly below it:
the one below is strictly shallower. -/
def StackRel (a b : Entry) : Prop :=
  strLt b.level a.level

/-- Invariant of the builder state `(outline, stack)`: every completed
root and every open frame satisfies `Inc`, and the stack levels are
strictly decreasing from the top down. -/
def StateOK (st : List Entry × List Entry) : Prop :=
  (∀ r ∈ st.1, Inc r) ∧ (∀ f ∈ st.2, Inc f) ∧ List.Chain' StackRel st.2

end Postprocess

/-! ## Shared numeric helpers -/

/-- `np.median`: sort ascending; middle element for odd length, mean of
the two middle elements for even length.  (Only ever applied to
non-empty lists in this development; `np.median([])` is NaN and every
call site guards the empty case.) -/
def medianQ (l : List ℚ) : ℚ :=
  let s := List.insertionSort (fun a b : ℚ => a ≤ b) l
  let n := s.length
  if n % 2 = 1 then s.getD (n / 2) 0
  else (s.getD (n / 2 - 1) 0 + s.getD (n / 2) 0) / 2

/-- Python `round(x, 2)` rounds to the nearest multiple of 1/100 with
ties to even (binary floating-point representation effects are not
modelled). -/
def roundHalfEven (q : ℚ) : ℤ :=
  let f := ⌊q⌋
  let r := q - f
  if r < 1 / 2 then f
  else if 1 / 2 < r then f + 1
  else if f % 2 = 0 then f else f + 1

def round2 (q : ℚ) : ℚ :=
  (roundHalfEven (q * 100) : ℚ) / 100

/-- Python `min` on a non-empty list (call sites guard emptiness). -/
def minQ : List ℚ → ℚ
  | [] => 0
  | x :: xs => xs.foldl min x

def maxQ : List ℚ → ℚ
  | [] => 0
  | x :: xs => xs.foldl max x

def minI : List Int → Int
  | [] => 0
  | x :: xs => xs.foldl min x

def maxI : List Int → Int
  | [] => 0
  | x :: xs => xs.foldl max x

/-! ## `scripts/taska_output.py` — flat outline and title resolution -/

namespace TaskaOutput

/-- The dict keys `generate_flat_outline` reads from a line:
`line['text']` and `line['page_num']`. -/
structure TLine where
  text : String
  page_num : Int
deriving DecidableEq

structure FlatEntry where
  level : String
  text : String
  page : Int
deriving DecidableEq

structure FlatOutput where
  title : String
  outline : List FlatEntry
deriving DecidableEq

/-- The title-selection loop
`for line, label in heading_blocks[:2]: … if len(text.split()) > 3 and
text != "•": title = text; break` (applied to the first-two list). -/
def findTitle : List (TLine × String) → Option String
  | [] => none
  | p :: rest =>
      let text := pyStrip p.1.text
      if pyWordCount text > 3 ∧ text ≠ "•" then some text
      else findTitle rest

/-- The body of the outline loop: keep a pair only when its label is
`H1`/`H2`/`H3` and its stripped text is non-empty and not a bare
bullet. -/
def flatEntryOf (p : TLine × String) : Option FlatEntry :=
  if p.2 = "H1" ∨ p.2 = "H2" ∨ p.2 = "H3" then
    if pyStrip p.1.text ≠ "" ∧ pyStrip p.1.text ≠ "•" then
      some ⟨p.2, pyStrip p.1.text, p.1.page_num⟩
    else none
  else none

/-- `generate_flat_outline(lines, labels, pdf_path)`.  The `fallback`
parameter stands for `os.path.splitext(os.path.basename(pdf_path))[0]`,
the filename stem computed by the external `os.path` functions. -/
def generate_flat_outline (lines : List TLine) (labels : List String)
    (fallback : String) : FlatOutput :=
  let heading_blocks :=
    (lines.zip labels).filter (fun p => pyStartsWith p.2 "H")
  let title := (findTitle (heading_blocks.take 2)).getD fallback
  let outline := (lines.zip labels).filterMap flatEntryOf
  ⟨title, outline⟩

end TaskaOutput

/-! ## `utils/pdf_util.py` — Line Assembler and Feature Extractor

`extract_lines_from_pdf` walks the renderer's block/line/span
structure, keeps lines whose cleaned text has at least 3 characters,
sorts each page's lines by their top coordinate, and flattens a feature
dict into each line.  Python `float` division by `0.0` raises
`ZeroDivisionError` (modelled as `none` for the whole extraction);
the median font size is a `np.float64`, for which division by zero
yields a non-finite value instead of raising (modelled as `none` in the
`font_size_ratio` field). -/

namespace PdfUtil

/-- The span dict keys read by the source: `span["text"]`,
`span["size"]`, and `span["bbox"]` as `(x0, y0, x1, y1)`. -/
structure Span where
  text : String
  size : ℚ
  x0 : ℚ
  y0 : ℚ
  x1 : ℚ
  y1 : ℚ
deriving DecidableEq

structure SrcLine where
  spans : List Span
deriving DecidableEq

/-- A text block; `lines = none` models a block without a `"lines"`
key (e.g. an image block), which the source skips. -/
structure Block where
  lines : Option (List SrcLine)

/-- One page: its blocks plus `page.rect.width` / `page.rect.height`. -/
structure Page where
  blocks : List Block
  width : ℚ
  height : ℚ

/-- `re.sub(r'[^A-Za-z0-9]', '', text.strip())`. -/
def clean_text (text : String) : String :=
  ⟨(pyStrip text).data.filter Char.isAlphanum⟩

/-- The line dict built in the collection loop, before the feature pass. -/
structure Rec0 where
  text : String
  font_size : ℚ
  x0 : ℚ
  x1 : ℚ
  width : ℚ
  y0 : ℚ
  y1 : ℚ
  page : Nat
  page_width : ℚ
  page_height : ℚ
deriving DecidableEq

/-- Build the line dict for one renderer line: join the span texts,
drop the line if the trimmed text is empty or its cleaned form has
fewer than 3 characters, and take the box and font size from
`line["spans"][0]`. -/
def lineRecord (page_num : Nat) (pw ph : ℚ) (l : SrcLine) : Option Rec0 :=
  let text := pyStrip (String.join (l.spans.map Span.text))
  if text = "" then none
  else if (clean_text text).length < 3 then none
  else
    match l.spans with
    | [] => none -- unreachable: with no spans the joined text is empty
    | s :: _ =>
        some ⟨text, s.size, s.x0, s.x1, s.x1 - s.x0, s.y0, s.y1, page_num, pw, ph⟩

/-- All qualifying line dicts of one page, in block/line order. -/
def pageRecords (page_num : Nat) (p : Page) : List Rec0 :=
  ((p.blocks.filterMap Block.lines).flatten).filterMap
    (lineRecord page_num p.width p.height)

/-- `lines.sort(key=lambda l: l["y0"])`: Python's sort is stable, and
insertion sort on the `y0` key is the standard stable-sort model. -/
def sortRecords (l : List Rec0) : List Rec0 :=
  List.insertionSort (fun a b => a.y0 ≤ b.y0) l

instance : IsTotal Rec0 (fun a b => a.y0 ≤ b.y0) :=
  ⟨fun a b => le_total a.y0 b.y0⟩

instance : IsTrans Rec0 (fun a b => a.y0 ≤ b.y0) :=
  ⟨fun _ _ _ h1 h2 => le_trans h1 h2⟩

/-- The line dict after `line.update(features)`. -/
structure Rec where
  text : String
  font_size : ℚ
  x0 : ℚ
  x1 : ℚ
  width : ℚ
  y0 : ℚ
  y1 : ℚ
  page : Nat
  page_width : ℚ
  page_height : ℚ
  y_position : ℚ
  width_ratio : ℚ
  vertical_gap : ℚ
  font_size_ratio : Option ℚ
  has_numeric_prefix : Nat
  word_count : Nat
  center_deviation : ℚ
  size_vs_prev : ℚ
  page_top_distance : ℚ
deriving DecidableEq

/-- Assemble the updated line dict.  `font_size_ratio` divides by the
`np.float64` median: a zero median gives a non-finite value (`none`),
not an exception.  `has_numeric_prefix` is
`int(bool(re.match(r'^[0-9]+(\.[0-9]+)*', text)))`, which holds exactly
when the text starts with an ASCII digit. -/
def mkRec (l : Rec0) (median_font vgap svp : ℚ) : Rec :=
  ⟨l.text, l.font_size, l.x0, l.x1, l.width, l.y0, l.y1, l.page,
   l.page_width, l.page_height,
   round2 l.y0,
   round2 (l.width / l.page_width),
   round2 vgap,
   if median_font = 0 then none else some (round2 (l.font_size / median_font)),
   (match l.text.data with
    | c :: _ => if c.isDigit then 1 else 0
    | [] => 0),
   pyWordCount (pyStrip l.text),
   round2 (|l.page_width / 2 - (l.x0 + l.width / 2)| / l.page_width),
   round2 svp,
   round2 (l.y0 / l.page_height)⟩

/-- The feature computation for one line given its predecessor on the
page.  Plain `float` divisions (page width, page height, previous font
size) raise on a zero denominator, killing the whole extraction. -/
def lineFeatures (median_font : ℚ) (prev : Option Rec0) (l : Rec0) :
    Option Rec :=
  if l.page_width = 0 then none
  else if l.page_height = 0 then none
  else
    match prev with
    | some pl =>
        if pl.font_size = 0 then none
        else some (mkRec l median_font (l.y0 - pl.y1) (l.font_size / pl.font_size))
    | none => some (mkRec l median_font 0 1)

/-- One page of `extract_lines_from_pdf`: collect, sort by `y0`,
compute the median font size (defaulting to 1.0 when the page has no
qualifying lines), then run the feature pass with each line paired with
its predecessor. -/
def pageFeatures (page_num : Nat) (p : Page) : Option (List Rec) :=
  let ls := sortRecords (pageRecords page_num p)
  let font_sizes := ls.map Rec0.font_size
  let median_font := if font_sizes = [] then 1 else medianQ font_sizes
  (ls.zip (none :: ls.map some)).mapM
    (fun pr => lineFeatures median_font pr.2 pr.1)

/-- The page loop `for page_num in range(len(doc))`, carrying the
current page number; a raised exception on any page aborts the whole
extraction. -/
def extractPages (page_num : Nat) : List Page → Option (List Rec)
  | [] => some []
  | p :: ps =>
      match pageFeatures page_num p with
      | none => none
      | some rs =>
          match extractPages (page_num + 1) ps with
          | none => none
          | some rest => some (rs ++ rest)

/-- `extract_lines_from_pdf`: pages are processed in document order and
their line lists concatenated. -/
def extract_lines_from_pdf (pages : List Page) : Option (List Rec) :=
  extractPages 0 pages

end PdfUtil

/-! ## `parallel_parsing_pdf.py` — native extraction, OCR fallback, merge -/

namespace ParallelParsingPdf

/-- Span dict as read by `extract_text_features` (`span.get("text","")`,
`span.get("size",0)`, `span.get("bbox",[0,0,0,0])`). -/
structure PSpan where
  text : String
  size : ℚ
  x0 : ℚ
  y0 : ℚ
  x1 : ℚ
  y1 : ℚ
deriving DecidableEq

structure PLine where
  spans : List PSpan
deriving DecidableEq

/-- `lines = none` models a block without a `"lines"` key; `has_text`
is key presence (`"lines" in block`), while the line loop uses
`block.get("lines", [])`. -/
structure PBlock where
  lines : Option (List PLine)

structure PPage where
  blocks : List PBlock

/-- The feature dict shared by native extraction and OCR recovery. -/
structure PFeature where
  text : String
  font_size : ℚ
  line_width : ℚ
  line_height : ℚ
  char_count : Nat
  page : Int
  y_position : ℚ
deriving DecidableEq

/-- The span filter of the inner loop: keep spans whose stripped text
is non-empty, recording the stripped text. -/
def keptSpans (l : PLine) : List PSpan :=
  l.spans.filterMap (fun s =>
    let t := pyStrip s.text
    if t = "" then none else some ⟨t, s.size, s.x0, s.y0, s.x1, s.y1⟩)

/-- One line of `extract_text_features`: `" ".join` of the kept texts,
median font size, union width/height over the kept span boxes. -/
def lineFeature (page_num : Nat) (l : PLine) : Option PFeature :=
  let kept := keptSpans l
  if kept = [] then none
  else
    let texts := kept.map PSpan.text
    let font_sizes := kept.map PSpan.size
    let x0s := kept.map PSpan.x0
    let x1s := kept.map PSpan.x1
    let y0s := kept.map PSpan.y0
    let y1s := kept.map PSpan.y1
    let text_combined := String.intercalate " " texts
    some ⟨text_combined,
          if font_sizes = [] then 0 else medianQ font_sizes,
          if x0s = [] ∨ x1s = [] then 0 else maxQ x1s - minQ x0s,
          if y0s = [] ∨ y1s = [] then 0 else maxQ y1s - minQ y0s,
          text_combined.length,
          (page_num : Int),
          if y0s = [] then 0 else minQ y0s⟩

/-- `any("lines" in block for block in blocks)`. -/
def pageHasText (p : PPage) : Bool :=
  p.blocks.any (fun b => b.lines.isSome)

/-- The native line features of one page (the double loop over
`blocks` and `block.get("lines", [])`). -/
def pageLineFeatures (page_num : Nat) (p : PPage) : List PFeature :=
  ((p.blocks.map (fun b => b.lines.getD [])).flatten).filterMap
    (lineFeature page_num)

/-- The page loop of `extract_text_features`, carrying `page.number`. -/
def extractTextGo (pdf_path : String) (page_num : Nat) :
    List PPage → List PFeature × List (String × Nat)
  | [] => ([], [])
  | p :: ps =>
      let rest := extractTextGo pdf_path (page_num + 1) ps
      if pageHasText p then (pageLineFeatures page_num p ++ rest.1, rest.2)
      else (rest.1, (pdf_path, page_num) :: rest.2)

/-- `extract_text_features`: walk the pages in order; a page without a
text layer becomes an OCR task, any other page contributes its line
features (tagged with the 0-based `page.number`). -/
def extract_text_features (pdf_path : String) (doc : List PPage) :
    List PFeature × List (String × Nat) :=
  extractTextGo pdf_path 0 doc

/-- One recognised word of the tesseract output (`data["text"][i]`,
grouping key `(block_num, par_num, line_num)`, box
`left/top/width/height`). -/
structure Word where
  text : String
  block_num : Nat
  par_num : Nat
  line_num : Nat
  left : Int
  top : Int
  width : Int
  height : Int

structure Group where
  words : List String
  lefts : List Int
  tops : List Int
  rights : List Int
  bottoms : List Int

/-- Insert one word into the per-key group map (a Python dict preserves
insertion order, modelled as an association list). -/
def addWord (groups : List ((Nat × Nat × Nat) × Group))
    (key : Nat × Nat × Nat) (txt : String) (left top width height : Int) :
    List ((Nat × Nat × Nat) × Group) :=
  if groups.any (fun g => g.1 = key) then
    groups.map (fun g =>
      if g.1 = key then
        (g.1, ⟨g.2.words ++ [txt], g.2.lefts ++ [left], g.2.tops ++ [top],
               g.2.rights ++ [left + width], g.2.bottoms ++ [top + height]⟩)
      else g)
  else
    groups ++ [(key, ⟨[txt], [left], [top], [left + width], [top + height]⟩)]

/-- The word-grouping loop of `ocr_page` (words with empty stripped
text are skipped). -/
def groupWords (ws : List Word) : List ((Nat × Nat × Nat) × Group) :=
  ws.foldl
    (fun gs w =>
      let txt := pyStrip w.text
      if txt = "" then gs
      else addWord gs (w.block_num, w.par_num, w.line_num) txt
             w.left w.top w.width w.height)
    []

/-- `ocr_page`: group the recognised words into lines and enrich them.
Note the tag `page = page_num + 1`, unlike the 0-based tag of
`extract_text_features`. -/
def ocr_page (words : List Word) (page_num : Nat) : List PFeature :=
  (groupWords words).map (fun g =>
    let text := String.intercalate " " g.2.words
    let x0 := minI g.2.lefts
    let y0 := minI g.2.tops
    let x1 := maxI g.2.rights
    let y1 := maxI g.2.bottoms
    ⟨text, 0, ((x1 - x0 : Int) : ℚ), ((y1 - y0 : Int) : ℚ), text.length,
     (page_num : Int) + 1, (y0 : ℚ)⟩)

/-- The `as_completed` collection loop of `main`: `results` lists the
job outcomes in completion order; a successful job's lines are appended
to `all_features`, a raised exception is reported and contributes
nothing. -/
def mergeOcrResults (all_features : List PFeature)
    (results : List (Except String (List PFeature))) : List PFeature :=
  results.foldl
    (fun acc r =>
      match r with
      | .ok lines => acc ++ lines
      | .error _ => acc)
    all_features

end ParallelParsingPdf

end LomaLoma

/-! ## Lemmas and claim theorems for the Outline Builder -/

namespace LomaLoma.Postprocess

open LomaLoma

@[simp] theorem addChild_level (g c : Entry) : (addChild g c).level = g.level := by
  cases g; rfl

theorem strLt_of_not_geb {a b : String} (h : pyStrGeb a b = false) : strLt a b := by
  simpa [pyStrGeb, strLt] using h

theorem popGEAux_snd_map_level (lvl : String) (o : List Entry) (s : List Entry) :
    ∀ c : Entry,
      ((popGEAux lvl o c s).2).map Entry.level
        = (s.dropWhile (fun f => pyStrGeb f.level lvl)).map Entry.level := by
  induction s with
  | nil => intro c; simp [popGEAux]
  | cons g rest ih =>
      intro c
      cases hb : pyStrGeb g.level lvl with
      | true => simp [popGEAux, hb, List.dropWhile_cons, ih]
      | false => simp [popGEAux, hb, List.dropWhile_cons]

theorem popGE_snd_map_level (lvl : String) (o s : List Entry) :
    ((popGE lvl o s).2).map Entry.level
      = (s.dropWhile (fun f => pyStrGeb f.level lvl)).map Entry.level := by
  cases s with
  | nil => simp [popGE]
  | cons top rest =>
      cases hb : pyStrGeb top.level lvl with
      | true => simp [popGE, hb, List.dropWhile_cons, popGEAux_snd_map_level]
      | false => simp [popGE, hb, List.dropWhile_cons]

theorem popGEAux_snd_head_lt (lvl : String) (o : List Entry) (s : List Entry) :
    ∀ c f, ((popGEAux lvl o c s).2).head? = some f → strLt f.level lvl := by
  induction s with
  | nil => intro c f h; simp [popGEAux] at h
  | cons g rest ih =>
      intro c f h
      cases hb : pyStrGeb g.level lvl with
      | true =>
          simp only [popGEAux, hb, if_pos] at h
          exact ih _ _ h
      | false =>
          simp [popGEAux, hb] at h
          rcases h with ⟨rfl, -⟩
          simpa [addChild_level] using strLt_of_not_geb hb

theorem popGE_snd_head_lt (lvl : String) (o s : List Entry) :
    ∀ f, ((popGE lvl o s).2).head? = some f → strLt f.level lvl := by
  cases s with
  | nil => intro f h; simp [popGE] at h
  | cons top rest =>
      intro f h
      cases hb : pyStrGeb top.level lvl with
      | true =>
          simp only [popGE, hb, if_pos] at h
          exact popGEAux_snd_head_lt lvl o rest top f h
      | false =>
          simp [popGE, hb] at h
          rcases h with ⟨rfl, -⟩
          exact strLt_of_not_geb hb

theorem Inc.children_lt {t : Entry} (h : Inc t) :
    ∀ c ∈ t.children, strLt t.level c.level := by
  cases h with
  | node l tx p cs hlt hrec => simpa [Entry.children, Entry.level] using hlt

theorem Inc.children_inc {t : Entry} (h : Inc t) : ∀ c ∈ t.children, Inc c := by
  cases h with
  | node l tx p cs hlt hrec => simpa [Entry.children] using hrec

theorem Inc.addChild {g c : Entry} (hg : Inc g) (hc : Inc c)
    (hlt : strLt g.level c.level) : Inc (addChild g c) := by
  cases hg with
  | node l tx p cs hl hr =>
      refine Inc.node l tx p (cs ++ [c]) ?_ ?_
      · intro x hx
        rcases List.mem_append.mp hx with hx | hx
        · exact hl x hx
        · rcases List.mem_singleton.mp hx with rfl
          simpa [Entry.level] using hlt
      · intro x hx
        rcases List.mem_append.mp hx with hx | hx
        · exact hr x hx
        · rcases List.mem_singleton.mp hx with rfl
          exact hc

theorem popGEAux_stateOK (lvl : String) (o : List Entry) (s : List Entry) :
    ∀ c : Entry, (∀ r ∈ o, Inc r) → Inc c → (∀ f ∈ s, Inc f) →
      List.Chain' StackRel (c :: s) →
      (∀ r ∈ (popGEAux lvl o c s).1, Inc r)
      ∧ (∀ f ∈ (popGEAux lvl o c s).2, Inc f)
      ∧ List.Chain' StackRel (popGEAux lvl o c s).2 := by
  induction s with
  | nil =>
      intro c ho hc _ _
      refine ⟨?_, by simp [popGEAux], by simp [popGEAux]⟩
      intro r hr
      simp only [popGEAux] at hr
      rcases List.mem_append.mp hr with hr | hr
      · exact ho r hr
      · rcases List.mem_singleton.mp hr with rfl; exact hc
  | cons g rest ih =>
      intro c ho hc hs hch
      have hcg : StackRel c g := (List.chain'_cons.mp hch).1
      have hch' : List.Chain' StackRel (g :: rest) := (List.chain'_cons.mp hch).2
      have hg : Inc g := hs g (by simp)
      have hrest : ∀ f ∈ rest, Inc f := fun f hf => hs f (by simp [hf])
      have hac : Inc (addChild g c) := Inc.addChild hg hc hcg
      have hchac : List.Chain' StackRel (addChild g c :: rest) := by
        rcases List.chain'_cons'.mp hch' with ⟨hhead, htail⟩
        refine List.chain'_cons'.mpr ⟨?_, htail⟩
        intro y hy
        simpa [StackRel, addChild_level] using hhead y hy
      cases hb : pyStrGeb g.level lvl with
      | true =>
          have h := ih (addChild g c) ho hac hrest hchac
          simpa [popGEAux, hb] using h
      | false =>
          simp only [popGEAux, hb, Bool.false_eq_true, if_false]
          refine ⟨ho, ?_, hchac⟩
          intro f hf
          rcases List.mem_cons.mp hf with rfl | hf
          · exact hac
          · exact hrest f hf

theorem popGE_stateOK (lvl : String) (o s : List Entry)
    (ho : ∀ r ∈ o, Inc r) (hs : ∀ f ∈ s, Inc f)
    (hch : List.Chain' StackRel s) :
    (∀ r ∈ (popGE lvl o s).1, Inc r)
    ∧ (∀ f ∈ (popGE lvl o s).2, Inc f)
    ∧ List.Chain' StackRel (popGE lvl o s).2 := by
  cases s with
  | nil => exact ⟨by simpa [popGE] using ho, by simp [popGE], by simp [popGE]⟩
  | cons top rest =>
      have htop : Inc top := hs top (by simp)
      have hrest : ∀ f ∈ rest, Inc f := fun f hf => hs f (by simp [hf])
      cases hb : pyStrGeb top.level lvl with
      | true =>
          have h := popGEAux_stateOK lvl o rest top ho htop hrest hch
          simpa [popGE, hb] using h
      | false =>
          simp only [popGE, hb, Bool.false_eq_true, if_false]
          exact ⟨ho, hs, hch⟩

theorem outlineStep_stateOK (st : List Entry × List Entry) (line : Line)
    (label : String) (h : StateOK st) : StateOK (outlineStep st line label) := by
  rcases h with ⟨ho, hs, hch⟩
  by_cases hb : label = "BODY"
  · simpa [outlineStep, hb] using ⟨ho, hs, hch⟩
  · have hpop := popGE_stateOK (pyUpper label) st.1 st.2 ho hs hch
    refine ⟨?_, ?_, ?_⟩
    · simpa [outlineStep, hb] using hpop.1
    · simp only [outlineStep, hb, if_neg, ite_false]
      intro f hf
      rcases List.mem_cons.mp hf with rfl | hf
      · exact Inc.node _ _ _ [] (by simp) (by simp)
      · exact hpop.2.1 f hf
    · simp only [outlineStep, hb, if_neg, ite_false]
      refine List.chain'_cons'.mpr ⟨?_, hpop.2.2⟩
      intro y hy
      have := popGE_snd_head_lt (pyUpper label) st.1 st.2 y (by simpa using hy)
      simpa [StackRel, Entry.level] using this

theorem foldl_outlineStep_stateOK (pairs : List (Line × String)) :
    ∀ st, StateOK st →
      StateOK (pairs.foldl (fun st p => outlineStep st p.1 p.2) st) := by
  induction pairs with
  | nil => intro st h; exact h
  | cons p rest ih => intro st h; exact ih _ (outlineStep_stateOK _ _ _ h)

theorem buildState_stateOK (pairs : List (Line × String)) :
    StateOK (buildState pairs) :=
  foldl_outlineStep_stateOK pairs ([], []) ⟨by simp, by simp, by simp⟩

theorem flushAux_inc (o : List Entry) (s : List Entry) :
    ∀ c : Entry, (∀ r ∈ o, Inc r) → Inc c → (∀ f ∈ s, Inc f) →
      List.Chain' StackRel (c :: s) →
      ∀ r ∈ flushAux o c s, Inc r := by
  induction s with
  | nil =>
      intro c ho hc _ _ r hr
      simp only [flushAux] at hr
      rcases List.mem_append.mp hr with hr | hr
      · exact ho r hr
      · rcases List.mem_singleton.mp hr with rfl; exact hc
  | cons g rest ih =>
      intro c ho hc hs hch r hr
      have hcg : StackRel c g := (List.chain'_cons.mp hch).1
      have hch' : List.Chain' StackRel (g :: rest) := (List.chain'_cons.mp hch).2
      have hg : Inc g := hs g (by simp)
      have hrest : ∀ f ∈ rest, Inc f := fun f hf => hs f (by simp [hf])
      have hac : Inc (addChild g c) := Inc.addChild hg hc hcg
      have hchac : List.Chain' StackRel (addChild g c :: rest) := by
        rcases List.chain'_cons'.mp hch' with ⟨hhead, htail⟩
        refine List.chain'_cons'.mpr ⟨?_, htail⟩
        intro y hy
        simpa [StackRel, addChild_level] using hhead y hy
      exact ih (addChild g c) ho hac hrest hchac r (by simpa [flushAux] using hr)

theorem flush_inc (o s : List Entry) (ho : ∀ r ∈ o, Inc r)
    (hs : ∀ f ∈ s, Inc f) (hch : List.Chain' StackRel s) :
    ∀ r ∈ flush o s, Inc r := by
  cases s with
  | nil => simpa [flush] using ho
  | cons top rest =>
      have htop : Inc top := hs top (by simp)
      have hrest : ∀ f ∈ rest, Inc f := fun f hf => hs f (by simp [hf])
      intro r hr
      exact flushAux_inc o rest top ho htop hrest hch r (by simpa [flush] using hr)

theorem build_outline_inc (lines : List Line) (labels : List String) :
    ∀ r ∈ build_outline lines labels, Inc r := by
  have h := buildState_stateOK (lines.zip labels)
  exact flush_inc _ _ h.1 h.2.1 h.2.2

theorem occurs_inc {e r : Entry} (ho : Occurs e r) (hr : Inc r) : Inc e := by
  induction ho with
  | here => exact hr
  | deeper hmem _ ih => exact ih (hr.children_inc _ hmem)

/-- C10: in every tree produced by `build_outline`, each entry's
children carry a level string strictly greater than the entry's own
level in the lexicographic (Python) string order, so levels strictly
increase along every root-to-leaf path. -/
theorem build_outline_child_levels_increase
    (lines : List Line) (labels : List String)
    (r : Entry) (hr : r ∈ build_outline lines labels)
    (e : Entry) (he : Occurs e r) :
    ∀ c ∈ e.children, strLt e.level c.level :=
  (occurs_inc he (build_outline_inc lines labels r hr)).children_lt

theorem build_outline_child_levels_increase_witness :
    (Entry.node "H1" "A" 0 [Entry.node "H2" "B" 1 []]
        ∈ build_outline [⟨"A", 0⟩, ⟨"B", 1⟩] ["H1", "H2"])
    ∧ strLt "H1" "H2" := by
  have hr : Entry.node "H1" "A" 0 [Entry.node "H2" "B" 1 []]
      ∈ build_outline [⟨"A", 0⟩, ⟨"B", 1⟩] ["H1", "H2"] := by
    rw [show build_outline [⟨"A", 0⟩, ⟨"B", 1⟩] ["H1", "H2"]
        = [Entry.node "H1" "A" 0 [Entry.node "H2" "B" 1 []]] from rfl]
    exact List.mem_singleton.mpr rfl
  refine ⟨hr, ?_⟩
  have h := build_outline_child_levels_increase [⟨"A", 0⟩, ⟨"B", 1⟩]
      ["H1", "H2"] _ hr _ Occurs.here (Entry.node "H2" "B" 1 [])
      (by simp [Entry.children])
  simpa [Entry.level] using h

end LomaLoma.Postprocess

namespace LomaLoma.Postprocess

open LomaLoma

theorem zip_concat_of_length_eq {α β : Type} :
    ∀ (l₁ : List α) (l₂ : List β) (a : α) (b : β), l₁.length = l₂.length →
      (l₁ ++ [a]).zip (l₂ ++ [b]) = l₁.zip l₂ ++ [(a, b)] := by
  intro l₁
  induction l₁ with
  | nil =>
      intro l₂ a b h
      cases l₂ with
      | nil => rfl
      | cons x xs => simp at h
  | cons x xs ih =>
      intro l₂ a b h
      cases l₂ with
      | nil => simp at h
      | cons y ys =>
          simp only [List.cons_append, List.zip_cons_cons]
          rw [ih ys a b (by simpa using h)]

/-- C1: consuming a heading label `L` pops the stack while the
top-of-stack level is `≥ L`, creates and pushes a node carrying the
line's stripped text and page; if every open frame has level `≥ L` the
whole stack is popped and the node is pushed alone, so that it is
attached at root level (the attachments themselves happen when a frame
is popped, or at the final flush: `flush`/`flushAux` append the popped
frame to the children of the frame below, or to the root list when the
stack is empty).  The `[H2, H1]` regression scenario flattens both
headings as root entries, in input order; the builder is a total
function, so it never fails on orphan deep headings. -/
theorem build_outline_heading_step
    (lines : List Line) (labels : List String) (line : Line) (L : String)
    (hlen : lines.length = labels.length)
    (hL : L ∈ (["H1", "H2", "H3"] : List String)) :
    buildState ((lines ++ [line]).zip (labels ++ [L]))
        = outlineStep (buildState (lines.zip labels)) line L
    ∧ (∀ o s : List Entry, ((outlineStep (o, s) line L).2).map Entry.level
        = L :: (s.dropWhile (fun f => pyStrGeb f.level L)).map Entry.level)
    ∧ (∀ o s : List Entry, ((outlineStep (o, s) line L).2).head?
        = some (Entry.node L (pyStrip line.text) line.page []))
    ∧ (∀ o s : List Entry, (outlineStep (o, s) line L).1 = (popGE L o s).1)
    ∧ (∀ o s : List Entry, s.dropWhile (fun f => pyStrGeb f.level L) = [] →
        (outlineStep (o, s) line L).2
          = [Entry.node L (pyStrip line.text) line.page []])
    ∧ (∀ (o : List Entry) (e g : Entry) (rest : List Entry),
        flush o (e :: g :: rest) = flush o (addChild g e :: rest))
    ∧ (∀ (o : List Entry) (e : Entry), flush o [e] = o ++ [e])
    ∧ (build_outline [⟨"Second", 1⟩, ⟨"First", 2⟩] ["H2", "H1"]).map
        (fun e => (e.level, e.text, e.page, e.children.isEmpty))
      = [("H2", "Second", 1, true), ("H1", "First", 2, true)] := by
  have hcase : L = "H1" ∨ L = "H2" ∨ L = "H3" := by simpa using hL
  have hBody : L ≠ "BODY" := by rcases hcase with rfl | rfl | rfl <;> decide
  have hUp : pyUpper L = L := by rcases hcase with rfl | rfl | rfl <;> decide
  refine ⟨?_, ?_, ?_, ?_, ?_, fun o e g rest => rfl, fun o e => rfl, by decide⟩
  · unfold buildState
    rw [zip_concat_of_length_eq lines labels line L hlen, List.foldl_append]
    rfl
  · intro o s
    simp [outlineStep, hBody, hUp, popGE_snd_map_level, Entry.level]
  · intro o s
    simp [outlineStep, hBody, hUp]
  · intro o s
    simp [outlineStep, hBody, hUp]
  · intro o s h
    have hm := popGE_snd_map_level L o s
    rw [h] at hm
    have hm2 : List.map Entry.level (popGE L o s).2 = [] := by simpa using hm
    have hnil : (popGE L o s).2 = [] := List.map_eq_nil_iff.mp hm2
    simp [outlineStep, hBody, hUp, hnil]

theorem build_outline_heading_step_witness :
    ("H2" ∈ (["H1", "H2", "H3"] : List String))
    ∧ (([⟨"Intro", 0⟩] : List Line).length = (["H1"] : List String).length)
    ∧ ((outlineStep (([] : List Entry), [Entry.node "H1" "Intro" 0 []])
          ⟨"Sub", 1⟩ "H2").2).map Entry.level
        = "H2" :: ([Entry.node "H1" "Intro" 0 []].dropWhile
            (fun f => pyStrGeb f.level "H2")).map Entry.level := by
  refine ⟨by decide, rfl, ?_⟩
  exact (build_outline_heading_step ([⟨"Intro", 0⟩] : List Line) ["H1"]
    (⟨"Sub", 1⟩ : Line) "H2" rfl (by decide)).2.1 []
    [Entry.node "H1" "Intro" 0 []]

/-- Counterexample to C3: `build_outline` hits `continue` on a BODY
label, so a BODY line is appended to no content list — the entries have
no content list at all — and leaves no trace in the tree: alone it
yields the empty forest, and under an open heading the heading keeps no
record of it. -/
theorem body_line_leaves_no_trace :
    build_outline [⟨"hello", 0⟩] ["BODY"] = []
    ∧ build_outline [⟨"Heading one", 0⟩, ⟨"hello", 1⟩] ["H1", "BODY"]
        = [Entry.node "H1" "Heading one" 0 []] :=
  ⟨rfl, rfl⟩

/-- C3 (amended): a BODY-labelled pair is skipped outright — the step
function leaves the state unchanged, so the builder computes the same
state as on the input with all BODY pairs removed; no node and no
content is recorded for them. -/
theorem body_lines_are_skipped :
    (∀ (st : List Entry × List Entry) (line : Line),
        outlineStep st line "BODY" = st)
    ∧ (∀ pairs : List (Line × String),
        buildState (pairs.filter (fun p => decide (p.2 ≠ "BODY")))
          = buildState pairs) := by
  have hstep : ∀ (st : List Entry × List Entry) (line : Line),
      outlineStep st line "BODY" = st := by
    intro st line; simp [outlineStep]
  refine ⟨hstep, ?_⟩
  have aux : ∀ (ps : List (Line × String)) (st : List Entry × List Entry),
      (ps.filter (fun p => decide (p.2 ≠ "BODY"))).foldl
          (fun st p => outlineStep st p.1 p.2) st
        = ps.foldl (fun st p => outlineStep st p.1 p.2) st := by
    intro ps
    induction ps with
    | nil => intro st; rfl
    | cons p rest ih =>
        intro st
        cases hc : (decide (p.2 ≠ "BODY")) with
        | false =>
            have h : p.2 = "BODY" := by simpa using hc
            rw [List.filter_cons, hc]
            simp only [Bool.false_eq_true, if_false]
            rw [List.foldl_cons, h, hstep]
            exact ih st
        | true =>
            rw [List.filter_cons, hc, if_pos rfl]
            rw [List.foldl_cons, List.foldl_cons]
            exact ih _
  exact fun pairs => aux pairs ([], [])

end LomaLoma.Postprocess

/-! ## Claim theorems for the flat outline and title resolution -/

namespace LomaLoma.TaskaOutput

open LomaLoma

theorem findTitle_eq_find? :
    ∀ l : List (TLine × String),
      findTitle l
        = (l.find? (fun p => decide (pyWordCount (pyStrip p.1.text) > 3
            ∧ pyStrip p.1.text ≠ "•"))).map (fun p => pyStrip p.1.text) := by
  intro l
  induction l with
  | nil => rfl
  | cons p rest ih =>
      by_cases h : pyWordCount (pyStrip p.1.text) > 3 ∧ pyStrip p.1.text ≠ "•"
      · simp [findTitle, h, List.find?_cons]
      · simp [findTitle, h, List.find?_cons, ih]

/-- Counterexample to C4's scenario: with heading candidates
`["•", "Quarterly Report Summary"]` the selected title is NOT
"Quarterly Report Summary" but the caller-supplied fallback, because
"Quarterly Report Summary" has exactly 3 words and the rule requires
strictly more than 3. -/
theorem quarterly_scenario_falls_back :
    (generate_flat_outline [⟨"•", 0⟩, ⟨"Quarterly Report Summary", 0⟩]
        ["H1", "H1"] "file01").title = "file01"
    ∧ "file01" ≠ "Quarterly Report Summary"
    ∧ pyWordCount "Quarterly Report Summary" = 3 :=
  ⟨by decide, by decide, by decide⟩

/-- C4 (amended): title resolution examines exactly the first two
heading-labelled pairs and selects the first whose stripped text has
more than 3 words and is not a bare bullet, falling back to the
caller-supplied identifier otherwise; for the candidates
`["•", "Quarterly Report Summary"]` neither qualifies (the second has
exactly 3 words), so the title is the fallback. -/
theorem title_resolution_rule :
    (∀ (lines : List TLine) (labels : List String) (fallback : String),
      (generate_flat_outline lines labels fallback).title
        = (((((lines.zip labels).filter (fun p => pyStartsWith p.2 "H")).take 2).find?
            (fun p => decide (pyWordCount (pyStrip p.1.text) > 3
              ∧ pyStrip p.1.text ≠ "•"))).map (fun p => pyStrip p.1.text)).getD fallback)
    ∧ (∀ fallback : String,
        (generate_flat_outline [⟨"•", 0⟩, ⟨"Quarterly Report Summary", 0⟩]
          ["H1", "H1"] fallback).title = fallback) := by
  constructor
  · intro lines labels fallback
    simp [generate_flat_outline, findTitle_eq_find?]
  · intro fallback
    rfl

theorem flatEntryOf_level {p : TLine × String} {e : FlatEntry}
    (h : flatEntryOf p = some e) :
    e.level = p.2 ∧ (p.2 = "H1" ∨ p.2 = "H2" ∨ p.2 = "H3") := by
  unfold flatEntryOf at h
  by_cases h1 : p.2 = "H1" ∨ p.2 = "H2" ∨ p.2 = "H3"
  · rw [if_pos h1] at h
    by_cases h2 : pyStrip p.1.text ≠ "" ∧ pyStrip p.1.text ≠ "•"
    · rw [if_pos h2] at h
      cases h
      exact ⟨rfl, h1⟩
    · rw [if_neg h2] at h; cases h
  · rw [if_neg h1] at h; cases h

end LomaLoma.TaskaOutput

namespace LomaLoma

open LomaLoma.Postprocess LomaLoma.TaskaOutput

/-- Counterexample to C7: `build_outline` turns a TITLE-labelled line
into an ordinary tree node of level `"TITLE"` (it special-cases only
BODY), so TITLE lines DO appear as nodes in the outline tree. -/
theorem title_label_becomes_tree_node :
    (Postprocess.build_outline [⟨"Doc", 0⟩] ["TITLE"]).map
        (fun e => (e.level, e.text, e.page))
      = [("TITLE", "Doc", 0)] := by decide

/-- C7 (amended): in `build_outline` a TITLE-labelled line becomes a
pushed tree node of level `"TITLE"` like any non-BODY label; only
`generate_flat_outline` keeps TITLE lines out of its flat outline
(every emitted entry is H1/H2/H3), and its title candidates are the
pairs whose label starts with `"H"`, which excludes `"TITLE"`. -/
theorem title_label_handling :
    (∀ (o s : List Entry) (line : Postprocess.Line),
        ((outlineStep (o, s) line "TITLE").2).head?
          = some (Entry.node "TITLE" (pyStrip line.text) line.page []))
    ∧ (∀ (lines : List TLine) (labels : List String) (fb : String),
        ∀ e ∈ (generate_flat_outline lines labels fb).outline,
          e.level = "H1" ∨ e.level = "H2" ∨ e.level = "H3")
    ∧ pyStartsWith "TITLE" "H" = false := by
  refine ⟨?_, ?_, by decide⟩
  · intro o s line
    have h : pyUpper "TITLE" = "TITLE" := by decide
    simp [outlineStep, h]
  · intro lines labels fb e he
    have he' : e ∈ (lines.zip labels).filterMap flatEntryOf := by
      simpa [generate_flat_outline] using he
    rcases List.mem_filterMap.mp he' with ⟨p, hp, hfp⟩
    rcases flatEntryOf_level hfp with ⟨hl, hor⟩
    rw [hl]; exact hor

theorem title_label_handling_witness :
    ((⟨"H2", "Big Heading", 4⟩ : FlatEntry)
        ∈ (generate_flat_outline [⟨"Big Heading", 4⟩] ["H2"] "fb").outline)
    ∧ (FlatEntry.level ⟨"H2", "Big Heading", 4⟩ = "H1"
        ∨ FlatEntry.level ⟨"H2", "Big Heading", 4⟩ = "H2"
        ∨ FlatEntry.level ⟨"H2", "Big Heading", 4⟩ = "H3") := by
  have hm : (⟨"H2", "Big Heading", 4⟩ : FlatEntry)
      ∈ (generate_flat_outline [⟨"Big Heading", 4⟩] ["H2"] "fb").outline := by
    decide
  exact ⟨hm, title_label_handling.2.1 [⟨"Big Heading", 4⟩] ["H2"] "fb" _ hm⟩

end LomaLoma

/-! ## Claim theorems for the OCR fallback and the merge -/

namespace LomaLoma.ParallelParsingPdf

open LomaLoma

theorem mergeOcrResults_eq :
    ∀ (results : List (Except String (List PFeature))) (acc : List PFeature),
      mergeOcrResults acc results
        = acc ++ (results.filterMap Except.toOption).flatten := by
  intro results
  induction results with
  | nil => intro acc; simp [mergeOcrResults]
  | cons r rest ih =>
      intro acc
      cases r with
      | ok ls =>
          have h1 : mergeOcrResults acc (Except.ok ls :: rest)
              = mergeOcrResults (acc ++ ls) rest := rfl
          rw [h1, ih]
          simp [Except.toOption, List.filterMap_cons]
      | error e =>
          have h1 : mergeOcrResults acc (Except.error e :: rest)
              = mergeOcrResults acc rest := rfl
          rw [h1, ih]
          simp [Except.toOption, List.filterMap_cons]

/-- C9: a recognition job that raised an exception contributes zero
lines (deleting it from the completion sequence does not change the
merged output), it is processed exactly once by the collection loop
(not retried), and the natively extracted lines are preserved unchanged
as the prefix of the merged output. -/
theorem failed_ocr_job_contributes_nothing :
    (∀ (acc : List PFeature) (before after : List (Except String (List PFeature)))
        (msg : String),
        mergeOcrResults acc (before ++ Except.error msg :: after)
          = mergeOcrResults acc (before ++ after))
    ∧ (∀ (acc : List PFeature) (results : List (Except String (List PFeature))),
        (mergeOcrResults acc results).take acc.length = acc) := by
  constructor
  · intro acc before after msg
    rw [mergeOcrResults_eq, mergeOcrResults_eq]
    simp [List.filterMap_append, List.filterMap_cons, Except.toOption]
  · intro acc results
    rw [mergeOcrResults_eq]
    exact List.take_left acc _

/-- Counterexample to C2: page index 2 (0-based) is the blank page and
spawns the single OCR job, so there is exactly one completion order.
The recovered "Revenue 2023" line is tagged `page = 3` (the source tags
OCR lines with `page_num + 1`, unlike the 0-based native tags), not
`page = 2`, and it is appended after ALL native lines — in particular
after the page-3 native line — not inserted at page 2's position. -/
theorem recovered_line_mistagged_and_appended :
    (extract_text_features "doc.pdf"
        [⟨[⟨some [⟨[⟨"Page zero text", 11, 0, 0, 100, 10⟩]⟩]⟩]⟩,
         ⟨[⟨some [⟨[⟨"Page one text", 11, 0, 0, 100, 10⟩]⟩]⟩]⟩,
         ⟨[⟨none⟩]⟩,
         ⟨[⟨some [⟨[⟨"Page three text", 11, 0, 0, 100, 10⟩]⟩]⟩]⟩]).2
      = [("doc.pdf", 2)]
    ∧ (mergeOcrResults
        (extract_text_features "doc.pdf"
          [⟨[⟨some [⟨[⟨"Page zero text", 11, 0, 0, 100, 10⟩]⟩]⟩]⟩,
           ⟨[⟨some [⟨[⟨"Page one text", 11, 0, 0, 100, 10⟩]⟩]⟩]⟩,
           ⟨[⟨none⟩]⟩,
           ⟨[⟨some [⟨[⟨"Page three text", 11, 0, 0, 100, 10⟩]⟩]⟩]⟩]).1
        [Except.ok (ocr_page
          [⟨"Revenue", 1, 1, 1, 0, 5, 40, 10⟩, ⟨"2023", 1, 1, 1, 45, 5, 20, 10⟩]
          2)]).map (fun f => (f.text, f.page))
      = [("Page zero text", 0), ("Page one text", 1), ("Page three text", 3),
         ("Revenue 2023", 3)] :=
  ⟨by decide, by decide⟩

/-- C2 (amended): every line recovered by `ocr_page` for 0-based page
index `n` is tagged `page = n + 1` (1-based, unlike the 0-based native
tags), and the collection loop simply appends each successful job's
lines after the natively extracted lines in job completion order — no
reordering by page position takes place. -/
theorem ocr_merge_appends_in_completion_order :
    (∀ (words : List Word) (n : Nat),
        ∀ f ∈ ocr_page words n, f.page = (n : Int) + 1)
    ∧ (∀ (acc : List PFeature) (results : List (Except String (List PFeature))),
        mergeOcrResults acc results
          = acc ++ (results.filterMap Except.toOption).flatten) := by
  constructor
  · intro words n f hf
    unfold ocr_page at hf
    rcases List.mem_map.mp hf with ⟨g, hg, rfl⟩
    rfl
  · intro acc results
    exact mergeOcrResults_eq results acc

theorem ocr_merge_appends_in_completion_order_witness :
    ((⟨"Rev", 0, ((40 : Int) : ℚ), ((10 : Int) : ℚ), 3, 3, ((5 : Int) : ℚ)⟩ : PFeature)
        ∈ ocr_page [⟨"Rev", 1, 1, 1, 0, 5, 40, 10⟩] 2)
    ∧ PFeature.page
        (⟨"Rev", 0, ((40 : Int) : ℚ), ((10 : Int) : ℚ), 3, 3, ((5 : Int) : ℚ)⟩ : PFeature)
      = ((2 : Nat) : Int) + 1 := by
  have hm : (⟨"Rev", 0, ((40 : Int) : ℚ), ((10 : Int) : ℚ), 3, 3, ((5 : Int) : ℚ)⟩ : PFeature)
      ∈ ocr_page [⟨"Rev", 1, 1, 1, 0, 5, 40, 10⟩] 2 := by decide
  exact ⟨hm, ocr_merge_appends_in_completion_order.1
    [⟨"Rev", 1, 1, 1, 0, 5, 40, 10⟩] 2 _ hm⟩

end LomaLoma.ParallelParsingPdf

/-! ## Claim theorems for line assembly (bounding box and font size) -/

namespace LomaLoma

open LomaLoma.PdfUtil LomaLoma.ParallelParsingPdf

/-- Counterexample to C8: in `utils/pdf_util.py` the assembled line's
box comes from `line["spans"][0]` alone.  With a second span reaching
x = 50 the union box would end at 50, but the recorded `x1` is 10. -/
theorem line_bbox_not_union :
    (PdfUtil.lineRecord 0 600 800
        ⟨[⟨"Hello", 12, 0, 0, 10, 10⟩, ⟨"World", 8, 10, 0, 50, 10⟩]⟩).map
        (fun r => (r.x0, r.x1, r.y0, r.y1, r.font_size))
      = some (0, 10, 0, 10, 12)
    ∧ maxQ [(10 : ℚ), 50] = 50
    ∧ (10 : ℚ) ≠ 50 :=
  ⟨by decide, by decide, by decide⟩

/-- C8 (amended): in `utils/pdf_util.py` both the bounding box AND the
representative font size of an assembled line are taken from the first
fragment (span), not from the union of fragment boxes; only
`extract_text_features` in `parallel_parsing_pdf.py` computes the union
box (width and height over the spans with non-empty stripped text), and
there the representative font size is the MEDIAN of the kept fragment
sizes, not the first fragment's size. -/
theorem bbox_and_font_size_sources :
    (∀ (n : Nat) (pw ph : ℚ) (l : PdfUtil.SrcLine) (r : PdfUtil.Rec0),
        PdfUtil.lineRecord n pw ph l = some r →
          l.spans.head?.map PdfUtil.Span.x0 = some r.x0
          ∧ l.spans.head?.map PdfUtil.Span.y0 = some r.y0
          ∧ l.spans.head?.map PdfUtil.Span.x1 = some r.x1
          ∧ l.spans.head?.map PdfUtil.Span.y1 = some r.y1
          ∧ l.spans.head?.map PdfUtil.Span.size = some r.font_size)
    ∧ (∀ (n : Nat) (l : PLine) (f : PFeature),
        lineFeature n l = some f →
          keptSpans l ≠ []
          ∧ f.line_width
              = maxQ ((keptSpans l).map PSpan.x1) - minQ ((keptSpans l).map PSpan.x0)
          ∧ f.line_height
              = maxQ ((keptSpans l).map PSpan.y1) - minQ ((keptSpans l).map PSpan.y0)
          ∧ f.font_size = medianQ ((keptSpans l).map PSpan.size)) := by
  constructor
  · intro n pw ph l r h
    simp only [PdfUtil.lineRecord] at h
    split at h
    · cases h
    · split at h
      · cases h
      · split at h
        · cases h
        · cases h
          rename_i s rest heq
          rw [heq]
          exact ⟨rfl, rfl, rfl, rfl, rfl⟩
  · intro n l f h
    simp only [lineFeature] at h
    split at h
    · cases h
    · rename_i hne
      cases h
      have hx0 : (keptSpans l).map PSpan.x0 ≠ [] := by
        simpa using hne
      have hx1 : (keptSpans l).map PSpan.x1 ≠ [] := by
        simpa using hne
      have hy0 : (keptSpans l).map PSpan.y0 ≠ [] := by
        simpa using hne
      have hy1 : (keptSpans l).map PSpan.y1 ≠ [] := by
        simpa using hne
      have hfs : (keptSpans l).map PSpan.size ≠ [] := by
        simpa using hne
      refine ⟨hne, ?_, ?_, ?_⟩
      · simp [hx0, hx1]
      · simp [hy0, hy1]
      · simp [hfs]

theorem bbox_and_font_size_sources_witness :
    (PdfUtil.lineRecord 0 600 800
        ⟨[⟨"Hello", 12, 0, 0, 10, 10⟩, ⟨"World", 8, 10, 0, 50, 10⟩]⟩
      = some ((PdfUtil.lineRecord 0 600 800
          ⟨[⟨"Hello", 12, 0, 0, 10, 10⟩, ⟨"World", 8, 10, 0, 50, 10⟩]⟩).getD
          ⟨"", 0, 0, 0, 0, 0, 0, 0, 0, 0⟩))
    ∧ (SrcLine.spans
          ⟨[⟨"Hello", 12, 0, 0, 10, 10⟩, ⟨"World", 8, 10, 0, 50, 10⟩]⟩).head?.map
          PdfUtil.Span.x1
        = some (Rec0.x1 ((PdfUtil.lineRecord 0 600 800
            ⟨[⟨"Hello", 12, 0, 0, 10, 10⟩, ⟨"World", 8, 10, 0, 50, 10⟩]⟩).getD
            ⟨"", 0, 0, 0, 0, 0, 0, 0, 0, 0⟩)) := by
  refine ⟨rfl, ?_⟩
  exact (bbox_and_font_size_sources.1 0 600 800
    ⟨[⟨"Hello", 12, 0, 0, 10, 10⟩, ⟨"World", 8, 10, 0, 50, 10⟩]⟩ _ rfl).2.2.1

end LomaLoma

/-! ## Claim theorems for the line ordering (C5) -/

namespace LomaLoma.PdfUtil

open LomaLoma

theorem lineFeatures_proj {m : ℚ} {prev : Option Rec0} {l : Rec0} {r : Rec}
    (h : lineFeatures m prev l = some r) : r.page = l.page ∧ r.y0 = l.y0 := by
  simp only [lineFeatures] at h
  split at h
  · cases h
  · split at h
    · cases h
    · split at h
      · split at h
        · cases h
        · cases h; exact ⟨rfl, rfl⟩
      · cases h; exact ⟨rfl, rfl⟩

theorem lineFeatures_dims {m : ℚ} {prev : Option Rec0} {l : Rec0} {r : Rec}
    (h : lineFeatures m prev l = some r) :
    l.page_width ≠ 0 ∧ l.page_height ≠ 0 := by
  simp only [lineFeatures] at h
  split at h
  · cases h
  · split at h
    · cases h
    · rename_i hw hh
      exact ⟨hw, hh⟩

theorem mapM_lineFeatures_proj (m : ℚ) :
    ∀ (ps : List (Rec0 × Option Rec0)) (rs : List Rec),
      ps.mapM (fun pr => lineFeatures m pr.2 pr.1) = some rs →
      rs.map (fun r => (r.page, r.y0)) = ps.map (fun pr => (pr.1.page, pr.1.y0)) := by
  intro ps
  induction ps with
  | nil =>
      intro rs h
      simp only [List.mapM_nil, pure, Option.some.injEq] at h
      rw [← h]
      rfl
  | cons p rest ih =>
      intro rs h
      rw [List.mapM_cons] at h
      cases hf : lineFeatures m p.2 p.1 with
      | none => rw [hf] at h; cases h
      | some r =>
          rw [hf] at h
          cases hrest : rest.mapM (fun pr => lineFeatures m pr.2 pr.1) with
          | none =>
              rw [hrest] at h
              cases h
          | some ys =>
              rw [hrest] at h
              have h2 : some (r :: ys) = some rs := h
              have h3 : r :: ys = rs := Option.some.inj h2
              rw [← h3]
              rcases lineFeatures_proj hf with ⟨hp, hy⟩
              simp only [List.map_cons, hp, hy]
              rw [ih ys hrest]

theorem sortRecords_pairwise (l : List Rec0) :
    (sortRecords l).Pairwise (fun a b => a.y0 ≤ b.y0) := by
  have h := List.sorted_insertionSort (fun a b : Rec0 => a.y0 ≤ b.y0) l
  exact h

theorem sortRecords_mem {a : Rec0} {l : List Rec0} :
    a ∈ sortRecords l ↔ a ∈ l :=
  (List.perm_insertionSort (fun a b => a.y0 ≤ b.y0) l).mem_iff

theorem lineRecord_tags {n : Nat} {pw ph : ℚ} {l : SrcLine} {r : Rec0}
    (h : lineRecord n pw ph l = some r) :
    r.page = n ∧ r.page_width = pw ∧ r.page_height = ph := by
  simp only [lineRecord] at h
  split at h
  · cases h
  · split at h
    · cases h
    · split at h
      · cases h
      · cases h; exact ⟨rfl, rfl, rfl⟩

theorem pageRecords_tags {n : Nat} {p : Page} :
    ∀ r ∈ pageRecords n p,
      r.page = n ∧ r.page_width = p.width ∧ r.page_height = p.height := by
  intro r hr
  rcases List.mem_filterMap.mp hr with ⟨l0, _, hl⟩
  exact lineRecord_tags hl

theorem pageFeatures_props {n : Nat} {p : Page} {rs : List Rec}
    (h : pageFeatures n p = some rs) :
    rs.Pairwise (fun a b => a.y0 ≤ b.y0) ∧ ∀ r ∈ rs, r.page = n := by
  simp only [pageFeatures] at h
  have hproj := mapM_lineFeatures_proj _ _ _ h
  have hfst : ((sortRecords (pageRecords n p)).zip
        (none :: (sortRecords (pageRecords n p)).map some)).map
        (fun pr => (pr.1.page, pr.1.y0))
      = (sortRecords (pageRecords n p)).map (fun l => (l.page, l.y0)) := by
    have hlen : (sortRecords (pageRecords n p)).length
        ≤ (none :: (sortRecords (pageRecords n p)).map some).length := by
      simp
    have hz := List.map_fst_zip (sortRecords (pageRecords n p))
      (none :: (sortRecords (pageRecords n p)).map some) hlen
    calc ((sortRecords (pageRecords n p)).zip
            (none :: (sortRecords (pageRecords n p)).map some)).map
            (fun pr => (pr.1.page, pr.1.y0))
        = (((sortRecords (pageRecords n p)).zip
            (none :: (sortRecords (pageRecords n p)).map some)).map
            Prod.fst).map (fun l => (l.page, l.y0)) := by
          rw [List.map_map]; rfl
      _ = (sortRecords (pageRecords n p)).map (fun l => (l.page, l.y0)) := by
          rw [hz]
  rw [hfst] at hproj
  constructor
  · have hs : ((sortRecords (pageRecords n p)).map (fun l => (l.page, l.y0))).Pairwise
        (fun a b : Nat × ℚ => a.2 ≤ b.2) :=
      List.pairwise_map.mpr (sortRecords_pairwise (pageRecords n p))
    have hrs : (rs.map (fun r => (r.page, r.y0))).Pairwise
        (fun a b : Nat × ℚ => a.2 ≤ b.2) := by
      rw [hproj]; exact hs
    rw [List.pairwise_map] at hrs
    simpa using hrs
  · intro r hr
    have hmem : ((r.page, r.y0) : Nat × ℚ)
        ∈ (sortRecords (pageRecords n p)).map (fun l => (l.page, l.y0)) := by
      rw [← hproj]
      exact List.mem_map.mpr ⟨r, hr, rfl⟩
    rcases List.mem_map.mp hmem with ⟨l0, hl0, heq⟩
    have : l0.page = r.page := congrArg Prod.fst heq
    rw [← this]
    exact (pageRecords_tags l0 (sortRecords_mem.mp hl0)).1

theorem extractPages_sorted :
    ∀ (pages : List Page) (n : Nat) (out : List Rec),
      extractPages n pages = some out →
        out.Pairwise (fun a b => a.page < b.page ∨ (a.page = b.page ∧ a.y0 ≤ b.y0))
        ∧ ∀ r ∈ out, n ≤ r.page := by
  intro pages
  induction pages with
  | nil =>
      intro n out h
      simp only [extractPages, Option.some.injEq] at h
      rw [← h]
      simp
  | cons p ps ih =>
      intro n out h
      simp only [extractPages] at h
      cases hpf : pageFeatures n p with
      | none => rw [hpf] at h; cases h
      | some rs =>
          rw [hpf] at h
          cases hrest : extractPages (n + 1) ps with
          | none => rw [hrest] at h; cases h
          | some rest =>
              rw [hrest] at h
              simp only [Option.some.injEq] at h
              rw [← h]
              rcases pageFeatures_props hpf with ⟨hsort, hpage⟩
              rcases ih (n + 1) rest hrest with ⟨hpw, hge⟩
              constructor
              · apply List.pairwise_append.mpr
                refine ⟨?_, hpw, ?_⟩
                · refine hsort.imp_of_mem ?_
                  intro a b ha hb hy
                  exact Or.inr ⟨by rw [hpage a ha, hpage b hb], hy⟩
                · intro a ha b hb
                  left
                  rw [hpage a ha]
                  exact Nat.lt_of_succ_le (hge b hb)
              · intro r hr
                rcases List.mem_append.mp hr with hr | hr
                · rw [hpage r hr]
                · exact Nat.le_of_succ_le (hge r hr)

/-- Counterexample to C5: two lines with the same `y0` keep their
extraction order (Python's stable sort on the single key `y0`), even
when the later one is further left: with `x0 = 5` before `x0 = 1` at
`y0 = 10`, the output is NOT ordered left-to-right within the tied
vertical position, so the claimed strict `(y, x)` ordering fails. -/
theorem tied_y_keeps_extraction_order :
    (extract_lines_from_pdf
        [⟨[⟨some [⟨[⟨"Alpha beta", 12, 5, 10, 90, 14⟩]⟩,
                  ⟨[⟨"Gamma delta", 12, 1, 10, 80, 14⟩]⟩,
                  ⟨[⟨"Epsilon zeta", 12, 0, 20, 70, 24⟩]⟩]⟩], 600, 800⟩]).map
        (fun rs => rs.map (fun r => (r.y0, r.x0)))
      = some [(10, 5), (10, 1), (20, 0)]
    ∧ ¬ ((5 : ℚ) ≤ 1) :=
  ⟨by decide, by decide⟩

/-- C5 (amended): the extracted Line list is sorted primarily by page
index and then by vertical position with non-decreasing `y0` inside a
page; ties in `y0` keep the extraction (block) order — there is no
left-to-right tie-break on `x`. -/
theorem extract_lines_sorted_by_page_then_y
    (pages : List Page) (out : List Rec)
    (h : extract_lines_from_pdf pages = some out) :
    out.Pairwise (fun a b => a.page < b.page ∨ (a.page = b.page ∧ a.y0 ≤ b.y0)) :=
  (extractPages_sorted pages 0 out h).1

theorem extract_lines_sorted_by_page_then_y_witness :
    (extract_lines_from_pdf [⟨[], 600, 800⟩] = some [])
    ∧ (List.Pairwise
        (fun a b : Rec => a.page < b.page ∨ (a.page = b.page ∧ a.y0 ≤ b.y0)) []) :=
  ⟨rfl, extract_lines_sorted_by_page_then_y [⟨[], 600, 800⟩] [] rfl⟩

end LomaLoma.PdfUtil

/-! ## Claim theorems for the feature ratios (C6) -/

namespace LomaLoma

theorem medianQ_pos {l : List ℚ} (hne : l ≠ []) (hpos : ∀ x ∈ l, 0 < x) :
    0 < medianQ l := by
  have hperm := List.perm_insertionSort (fun a b : ℚ => a ≤ b) l
  have hmem : ∀ x ∈ List.insertionSort (fun a b : ℚ => a ≤ b) l, 0 < x :=
    fun x hx => hpos x (hperm.subset hx)
  have hlpos : 0 < (List.insertionSort (fun a b : ℚ => a ≤ b) l).length := by
    rw [hperm.length_eq]
    exact List.length_pos.mpr hne
  have hidx2 : (List.insertionSort (fun a b : ℚ => a ≤ b) l).length / 2
      < (List.insertionSort (fun a b : ℚ => a ≤ b) l).length :=
    Nat.div_lt_self hlpos (by norm_num)
  have hidx1 : (List.insertionSort (fun a b : ℚ => a ≤ b) l).length / 2 - 1
      < (List.insertionSort (fun a b : ℚ => a ≤ b) l).length :=
    lt_of_le_of_lt (Nat.sub_le _ _) hidx2
  simp only [medianQ]
  split
  · rw [List.getD_eq_getElem _ _ hidx2]
    exact hmem _ (List.getElem_mem hidx2)
  · have ha : 0 < (List.insertionSort (fun a b : ℚ => a ≤ b) l).getD
        ((List.insertionSort (fun a b : ℚ => a ≤ b) l).length / 2 - 1) 0 := by
      rw [List.getD_eq_getElem _ _ hidx1]
      exact hmem _ (List.getElem_mem hidx1)
    have hb : 0 < (List.insertionSort (fun a b : ℚ => a ≤ b) l).getD
        ((List.insertionSort (fun a b : ℚ => a ≤ b) l).length / 2) 0 := by
      rw [List.getD_eq_getElem _ _ hidx2]
      exact hmem _ (List.getElem_mem hidx2)
    exact div_pos (add_pos ha hb) (by norm_num)

end LomaLoma

namespace LomaLoma.PdfUtil

open LomaLoma

theorem lineRecord_font_pos {n : Nat} {pw ph : ℚ} {l : SrcLine} {r : Rec0}
    (h : lineRecord n pw ph l = some r) (hpos : ∀ s ∈ l.spans, 0 < s.size) :
    0 < r.font_size := by
  simp only [lineRecord] at h
  split at h
  · cases h
  · split at h
    · cases h
    · split at h
      · cases h
      · cases h
        rename_i s rest heq
        exact hpos s (by rw [heq]; simp)

theorem pageRecords_font_pos {n : Nat} {p : Page}
    (hp : ∀ b ∈ p.blocks, ∀ sl ∈ b.lines.getD [], ∀ s ∈ sl.spans, 0 < s.size) :
    ∀ r ∈ pageRecords n p, 0 < r.font_size := by
  intro r hr
  rcases List.mem_filterMap.mp hr with ⟨sl, hsl, hlr⟩
  rcases List.mem_flatten.mp hsl with ⟨ls, hls, hsl2⟩
  rcases List.mem_filterMap.mp hls with ⟨b, hb, hbl⟩
  refine lineRecord_font_pos hlr ?_
  intro s hs
  refine hp b hb sl ?_ s hs
  rw [show b.lines.getD [] = ls from by rw [hbl]; rfl]
  exact hsl2

theorem mkRec_ratio {l : Rec0} {m vgap svp : ℚ} (hm : m ≠ 0) :
    (mkRec l m vgap svp).font_size_ratio = some (round2 (l.font_size / m))
    ∧ (mkRec l m vgap svp).size_vs_prev = round2 svp := by
  constructor
  · simp [mkRec, hm]
  · rfl

theorem lineFeatures_some_of_pos {m : ℚ} (hm : 0 < m) {prev : Option Rec0}
    {l : Rec0} (hw : l.page_width ≠ 0) (hh : l.page_height ≠ 0)
    (hl : 0 < l.font_size) (hprev : ∀ pl, prev = some pl → 0 < pl.font_size) :
    ∃ r, lineFeatures m prev l = some r
      ∧ (∃ q, 0 < q ∧ r.font_size_ratio = some (round2 q))
      ∧ (∃ q, 0 < q ∧ r.size_vs_prev = round2 q) := by
  cases prev with
  | none =>
      refine ⟨mkRec l m 0 1, ?_, ?_, ⟨1, one_pos, (mkRec_ratio hm.ne').2⟩⟩
      · simp [lineFeatures, hw, hh]
      · exact ⟨l.font_size / m, div_pos hl hm, (mkRec_ratio hm.ne').1⟩
  | some pl =>
      have hpf : 0 < pl.font_size := hprev pl rfl
      refine ⟨mkRec l m (l.y0 - pl.y1) (l.font_size / pl.font_size), ?_, ?_, ?_⟩
      · simp [lineFeatures, hw, hh, hpf.ne']
      · exact ⟨l.font_size / m, div_pos hl hm, (mkRec_ratio hm.ne').1⟩
      · exact ⟨l.font_size / pl.font_size, div_pos hl hpf, (mkRec_ratio hm.ne').2⟩

theorem mapM_some_of_forall {α β : Type} (f : α → Option β) (P : β → Prop) :
    ∀ xs : List α, (∀ x ∈ xs, ∃ y, f x = some y ∧ P y) →
      ∃ ys, xs.mapM f = some ys ∧ ∀ y ∈ ys, P y := by
  intro xs
  induction xs with
  | nil => intro _; exact ⟨[], rfl, by simp⟩
  | cons x xs ih =>
      intro hall
      rcases hall x (by simp) with ⟨y, hy, hPy⟩
      rcases ih (fun z hz => hall z (by simp [hz])) with ⟨ys, hys, hPys⟩
      refine ⟨y :: ys, ?_, ?_⟩
      · rw [List.mapM_cons, hy, hys]; rfl
      · intro z hz
        rcases List.mem_cons.mp hz with rfl | hz
        · exact hPy
        · exact hPys z hz

theorem pageFeatures_some_of_pos (n : Nat) {p : Page}
    (hw : p.width ≠ 0) (hh : p.height ≠ 0)
    (hp : ∀ b ∈ p.blocks, ∀ sl ∈ b.lines.getD [], ∀ s ∈ sl.spans, 0 < s.size) :
    ∃ rs, pageFeatures n p = some rs
      ∧ ∀ r ∈ rs, (∃ q, 0 < q ∧ r.font_size_ratio = some (round2 q))
          ∧ (∃ q, 0 < q ∧ r.size_vs_prev = round2 q) := by
  have hfontl : ∀ l0 ∈ sortRecords (pageRecords n p), 0 < l0.font_size :=
    fun l0 h => pageRecords_font_pos hp l0 (sortRecords_mem.mp h)
  have hdiml : ∀ l0 ∈ sortRecords (pageRecords n p),
      l0.page_width = p.width ∧ l0.page_height = p.height :=
    fun l0 h => (pageRecords_tags l0 (sortRecords_mem.mp h)).2
  have hmpos : 0 < (if ((sortRecords (pageRecords n p)).map Rec0.font_size) = []
      then (1 : ℚ)
      else medianQ ((sortRecords (pageRecords n p)).map Rec0.font_size)) := by
    split
    · exact one_pos
    · rename_i hne
      refine medianQ_pos hne ?_
      intro x hx
      rcases List.mem_map.mp hx with ⟨l0, hl0, rfl⟩
      exact hfontl l0 hl0
  have hall : ∀ pr ∈ ((sortRecords (pageRecords n p)).zip
      (none :: (sortRecords (pageRecords n p)).map some)),
      ∃ r, (fun pr : Rec0 × Option Rec0 =>
        lineFeatures
          (if ((sortRecords (pageRecords n p)).map Rec0.font_size) = [] then (1 : ℚ)
           else medianQ ((sortRecords (pageRecords n p)).map Rec0.font_size))
          pr.2 pr.1) pr = some r
        ∧ ((∃ q, 0 < q ∧ r.font_size_ratio = some (round2 q))
          ∧ (∃ q, 0 < q ∧ r.size_vs_prev = round2 q)) := by
    rintro ⟨a, b⟩ hpr
    have hab := List.of_mem_zip hpr
    have hfa : 0 < a.font_size := hfontl a hab.1
    have hwa : a.page_width ≠ 0 := by rw [(hdiml a hab.1).1]; exact hw
    have hha : a.page_height ≠ 0 := by rw [(hdiml a hab.1).2]; exact hh
    refine lineFeatures_some_of_pos hmpos hwa hha hfa ?_
    intro pl hpl
    rcases List.mem_cons.mp hab.2 with hb | hb
    · rw [hb] at hpl; cases hpl
    · rcases List.mem_map.mp hb with ⟨l0, hl0, hbeq⟩
      rw [← hbeq] at hpl
      obtain rfl : l0 = pl := Option.some.inj hpl
      exact hfontl _ hl0
  obtain ⟨rs, hrs, hP⟩ := mapM_some_of_forall
    (fun pr : Rec0 × Option Rec0 =>
      lineFeatures
        (if ((sortRecords (pageRecords n p)).map Rec0.font_size) = [] then (1 : ℚ)
         else medianQ ((sortRecords (pageRecords n p)).map Rec0.font_size))
        pr.2 pr.1)
    (fun r => (∃ q, 0 < q ∧ r.font_size_ratio = some (round2 q))
      ∧ (∃ q, 0 < q ∧ r.size_vs_prev = round2 q))
    ((sortRecords (pageRecords n p)).zip
      (none :: (sortRecords (pageRecords n p)).map some))
    hall
  exact ⟨rs, by simpa only [pageFeatures] using hrs, hP⟩

theorem extractPages_some_of_pos :
    ∀ (pages : List Page) (n : Nat),
      (∀ p ∈ pages, p.width ≠ 0) → (∀ p ∈ pages, p.height ≠ 0) →
      (∀ p ∈ pages, ∀ b ∈ p.blocks, ∀ sl ∈ b.lines.getD [],
        ∀ s ∈ sl.spans, 0 < s.size) →
      ∃ out, extractPages n pages = some out
        ∧ ∀ r ∈ out, (∃ q, 0 < q ∧ r.font_size_ratio = some (round2 q))
            ∧ (∃ q, 0 < q ∧ r.size_vs_prev = round2 q) := by
  intro pages
  induction pages with
  | nil => intro n _ _ _; exact ⟨[], rfl, by simp⟩
  | cons p ps ih =>
      intro n hw hh hf
      obtain ⟨rs, hrs, hPrs⟩ := pageFeatures_some_of_pos n
        (hw p (by simp)) (hh p (by simp)) (hf p (by simp))
      obtain ⟨rest, hrest, hPrest⟩ := ih (n + 1)
        (fun q hq => hw q (by simp [hq])) (fun q hq => hh q (by simp [hq]))
        (fun q hq => hf q (by simp [hq]))
      refine ⟨rs ++ rest, ?_, ?_⟩
      · simp only [extractPages, hrs, hrest]
      · intro r hr
        rcases List.mem_append.mp hr with hr | hr
        · exact hPrs r hr
        · exact hPrest r hr

/-- Counterexample to C6: the denominators are NOT guarded.  A page
whose only line has font size 0 gets median 0, and `font_size_ratio`
becomes the non-finite `np.float64` division result (modelled `none`)
rather than a defaulted 1.0; and when a previous line's font size is 0,
`size_vs_prev` is a plain-float division by zero which raises
`ZeroDivisionError` and kills the whole extraction (modelled `none` for
the extraction).  The `1.0` default in the source guards only the
median of an empty page, where no feature is computed at all. -/
theorem zero_font_size_breaks_ratios :
    ((extract_lines_from_pdf
        [⟨[⟨some [⟨[⟨"Zero font", 0, 5, 10, 90, 14⟩]⟩]⟩], 600, 800⟩]).map
        (fun rs => rs.map Rec.font_size_ratio) = some [none])
    ∧ extract_lines_from_pdf
        [⟨[⟨some [⟨[⟨"Zero font", 0, 5, 10, 90, 14⟩]⟩,
                  ⟨[⟨"Second line", 12, 5, 20, 90, 24⟩]⟩,
                  ⟨[⟨"Third line", 12, 5, 30, 90, 34⟩]⟩]⟩], 600, 800⟩]
      = none :=
  ⟨by decide, by decide⟩

/-- C6 (amended): when every span on every page has a positive font
size (and the page dimensions are non-zero), `font_size_ratio` and
`size_vs_prev` are defined finite values, each the 2-decimal rounding
of a positive quotient; a zero denominator is not guarded — a zero
median yields a non-finite `font_size_ratio` and a zero previous font
size raises, the only default being the median of a page with no
qualifying lines. -/
theorem font_ratios_defined_when_fonts_positive
    (pages : List Page)
    (hw : ∀ p ∈ pages, p.width ≠ 0)
    (hh : ∀ p ∈ pages, p.height ≠ 0)
    (hf : ∀ p ∈ pages, ∀ b ∈ p.blocks, ∀ sl ∈ b.lines.getD [],
      ∀ s ∈ sl.spans, 0 < s.size) :
    ∃ out, extract_lines_from_pdf pages = some out
      ∧ ∀ r ∈ out, (∃ q, 0 < q ∧ r.font_size_ratio = some (round2 q))
          ∧ (∃ q, 0 < q ∧ r.size_vs_prev = round2 q) :=
  extractPages_some_of_pos pages 0 hw hh hf

theorem font_ratios_defined_when_fonts_positive_witness :
    (∀ p ∈ ([⟨[⟨some [⟨[⟨"Nice line", 12, 5, 10, 90, 14⟩]⟩]⟩], 600, 800⟩] :
        List Page), p.width ≠ 0)
    ∧ (∃ out, extract_lines_from_pdf
          [⟨[⟨some [⟨[⟨"Nice line", 12, 5, 10, 90, 14⟩]⟩]⟩], 600, 800⟩]
        = some out
        ∧ ∀ r ∈ out, (∃ q, 0 < q ∧ r.font_size_ratio = some (round2 q))
            ∧ (∃ q, 0 < q ∧ r.size_vs_prev = round2 q)) := by
  refine ⟨by decide, ?_⟩
  exact font_ratios_defined_when_fonts_positive
    [⟨[⟨some [⟨[⟨"Nice line", 12, 5, 10, 90, 14⟩]⟩]⟩], 600, 800⟩]
    (by decide) (by decide) (by decide)

end LomaLoma.PdfUtil
